import Mathlib

/-!
# Verification of the gecko transaction-integrity core

Shallow embedding of `src/vms/avm/operation_tx.go` (the `OperationTx`
syntactic/semantic verification pipeline and `UTXOs` production), together
with spec-modelled components whose implementations are external to the
excerpt (the `Packer` codec and the identifier string codec), and proofs of
the spec's claims about them.

Conventions: Go `interface{}` payloads are modelled as opaque `Nat` tags;
`ids.ID` values are modelled as `Nat`; Go `uint32` casts are modelled with
explicit `% 2 ^ 32`; fallible external collaborators are modelled as
functions bundled in environment structures; a Go runtime panic (index out
of range) is a distinguished outcome of the result type.
-/

namespace Gecko

/-- `UTXOID` from the entity model: a produced output is addressed by
`(TxID, OutputIndex)`. `TxID` is an `ids.ID` (modelled as `Nat`);
`OutputIndex` is a `uint32` (modelled as `Nat`; casts carry `% 2 ^ 32`). -/
structure UTXOID where
  txID : Nat
  outputIndex : Nat
deriving DecidableEq, Repr

/-- An transaction input: a referenced `UTXOID` plus an opaque spending
payload (`in.In`, an `interface{}` in the source, modelled as a `Nat` tag). -/
structure Input where
  utxoID : UTXOID
  payload : Nat
deriving DecidableEq, Repr

/-- Modelled from the spec: `InputID()` of an input is "deterministic given
the UTXOID" (§3); the implementation is external to the excerpt, so it is
modelled as the UTXOID itself (a deterministic, injective derivation). -/
def Input.inputID (i : Input) : UTXOID := i.utxoID

/-- Modelled from the spec: `InputSource()` of an input returns the ancestor
reference `(ancestorTxID, outputIndex)` (§3); modelled as the two fields of
the input's UTXOID. -/
def Input.inputSource (i : Input) : Nat × Nat := (i.utxoID.txID, i.utxoID.outputIndex)

/-- An output produced by an operation or the base transaction: an opaque
payload (`out.Out` in the source). -/
structure Output where
  payload : Nat
deriving DecidableEq, Repr

/-- `Operation` from the entity model: `{AssetID, Ins, Outs}`. -/
structure Operation where
  assetID : Nat
  ins : List Input
  outs : List Output
deriving DecidableEq, Repr

/-- The base-transaction fields the pipeline reads: its inputs (`t.Ins`,
promoted from `BaseTx`) and its outputs. -/
structure BaseTx where
  ins : List Input
  outs : List Output
deriving DecidableEq, Repr

/-- `OperationTx`: a base transaction plus a list of operations. -/
structure OperationTx where
  baseTx : BaseTx
  ops : List Operation
deriving DecidableEq, Repr

/-- A resolved unspent output: `UTXOID`, asset identifier, opaque payload. -/
structure UTXO where
  utxoID : UTXOID
  asset : Nat
  out : Nat
deriving DecidableEq, Repr

/-- A credential: one opaque proof object (`cred.Cred`). -/
structure Credential where
  cred : Nat
deriving DecidableEq, Repr

/-! ## UTXOs (produced outputs), `operation_tx.go` lines 51-72 -/

/-- Modelled from the spec: `BaseTx.UTXOs` (implementation external to the
excerpt) produces the base transaction's outputs as UTXOs addressed by
`(TxID, position)` in declared order, each carrying its output payload
(§3: a UTXO is identified by `(TxID, OutputIndex)`; control flow §2:
the pipeline "accumulates the new unspent outputs the transaction
produces"). The base outputs' asset is modelled by a per-base asset tag. -/
def BaseTx.UTXOs (b : BaseTx) (txID : Nat) (baseAsset : Nat) : List UTXO :=
  b.outs.enum.map fun p =>
    { utxoID := { txID := txID, outputIndex := p.1 % 2 ^ 32 }
      asset := baseAsset
      out := p.2.payload }

/-- The inner loop of `OperationTx.UTXOs`: append one UTXO per operation
output, with `OutputIndex = uint32(len(utxos))` at the time of append. -/
def appendOpUTXOs (txID asset : Nat) : List Output → List UTXO → List UTXO
  | [], utxos => utxos
  | out :: rest, utxos =>
      appendOpUTXOs txID asset rest
        (utxos ++ [{ utxoID := { txID := txID, outputIndex := utxos.length % 2 ^ 32 }
                     asset := asset
                     out := out.payload }])

/-- The outer loop of `OperationTx.UTXOs` over the operations. -/
def appendOpsUTXOs (txID : Nat) : List Operation → List UTXO → List UTXO
  | [], utxos => utxos
  | op :: rest, utxos => appendOpsUTXOs txID rest (appendOpUTXOs txID op.assetID op.outs utxos)

/-- `OperationTx.UTXOs` (lines 51-72): base UTXOs first, then each
operation's outputs in declared order, each indexed by its position. -/
def OperationTx.UTXOs (t : OperationTx) (txID baseAsset : Nat) : List UTXO :=
  appendOpsUTXOs txID t.ops (t.baseTx.UTXOs txID baseAsset)

/-! ## SyntacticVerify, `operation_tx.go` lines 75-106 -/

/-- The syntactic-error taxonomy of the pipeline. Errors of external
collaborators (`BaseTx.SyntacticVerify`, `op.Verify`) are opaque tags. -/
inductive SynErr where
  | nilTx
  | baseErr (e : Nat)
  | opErr (e : Nat)
  | doubleSpend
  | operationsNotSortedUnique
deriving DecidableEq, Repr

/-- The external collaborators `SyntacticVerify` calls: the base
transaction's own structural verification, each operation's own `Verify`,
and the `isSortedAndUniqueOperations` predicate (defined elsewhere in the
package, external to the excerpt). -/
structure SynEnv where
  baseSynVerify : BaseTx → Option Nat
  opVerify : Operation → Option Nat
  isSortedAndUniqueOperations : List Operation → Bool

/-- Lines 94-100: for each input of an operation, compute the input
identifier; fail with the double-spend error if already consumed, else add
it to the consumed set (`ids.Set` modelled as a list with membership). -/
def addOpIns (consumed : List UTXOID) : List Input → Except SynErr (List UTXOID)
  | [] => .ok consumed
  | i :: rest =>
      let inputID := i.inputID
      if consumed.contains inputID then .error .doubleSpend
      else addOpIns (inputID :: consumed) rest

/-- Lines 90-101: for each operation in declared order, run its own
`Verify`, then run the double-spend check over its inputs. -/
def verifyOps (env : SynEnv) (consumed : List UTXOID) : List Operation → Except SynErr (List UTXOID)
  | [] => .ok consumed
  | op :: rest =>
      match env.opVerify op with
      | some e => .error (.opErr e)
      | none =>
          match addOpIns consumed op.ins with
          | .error e => .error e
          | .ok consumed' => verifyOps env consumed' rest

/-- `SyntacticVerify` (lines 75-106): nil check, base structural
verification, per-operation verification with the double-spend check, then
the sorted-and-unique check over the operation list. -/
def SyntacticVerify (env : SynEnv) (t : Option OperationTx) : Option SynErr :=
  match t with
  | none => some .nilTx
  | some tx =>
      match env.baseSynVerify tx.baseTx with
      | some e => some (.baseErr e)
      | none =>
          let consumed := tx.baseTx.ins.map Input.inputID
          match verifyOps env consumed tx.ops with
          | .error e => some e
          | .ok _ =>
              if env.isSortedAndUniqueOperations tx.ops then none
              else some .operationsNotSortedUnique

/-! ## SemanticVerify, `operation_tx.go` lines 109-195 -/

/-- The semantic-error taxonomy of the pipeline: the base transaction's own
semantic error, `errAssetIDMismatch`, `errMissingUTXO`, `errInvalidUTXO`,
the `vm.getFx` lookup error, `errIncompatibleFx`, and the error reported by
the feature extension's `VerifyOperation`. -/
inductive SemErr where
  | baseErr (e : Nat)
  | assetIDMismatch
  | missingUTXO
  | invalidUTXO
  | getFxErr (e : Nat)
  | incompatibleFx
  | fxVerifyErr (e : Nat)
deriving DecidableEq, Repr

/-- The outcome of a fallible Go computation: a value, a returned error, or
a runtime panic (index out of range on a slice). -/
inductive Res (α : Type) where
  | ok (a : α)
  | err (e : SemErr)
  | panics
deriving DecidableEq, Repr

/-- A recorded invocation of a feature extension's `VerifyOperation`
(line 189): the selected extension index and the four parallel payload
sequences passed to it. -/
structure FxCall where
  fxIndex : Nat
  utxos : List Nat
  ins : List Nat
  creds : List Nat
  outs : List Nat
deriving DecidableEq, Repr

/-- The external collaborators `SemanticVerify` calls: the base
transaction's own semantic verification, the live UTXO store
(`vm.state.UTXO`; `none` is the lookup error), the ancestor-transaction
resolver (`parent.Verify`, `parent.Status().Decided()`, `parent.UTXOs()`,
keyed by ancestor transaction ID), the extension registry `vm.getFx`
(keyed by the optional dispatch payload), the asset-compatibility check
`vm.verifyFxUsage`, and the extensions' `VerifyOperation` entry points. -/
structure SemEnv where
  baseSemVerify : BaseTx → List Credential → Option Nat
  stateUTXO : UTXOID → Option UTXO
  parentVerify : Nat → Bool
  parentDecided : Nat → Bool
  parentUTXOs : Nat → List UTXO
  getFx : Option Nat → Except Nat Nat
  verifyFxUsage : Nat → Nat → Bool
  fxVerifyOperation : FxCall → Option Nat

/-- Lines 122-165: resolve one operation's inputs in order. The index `i`
tracks the loop counter; `creds[i+offset]` is a bare slice index (a panic
when out of range). The store is consulted first; on a miss the reference
is resolved against the ancestor transaction's produced outputs. The three
accumulators mirror `utxos`, `ins` and `credIntfs`. -/
def resolveIns (env : SemEnv) (creds : List Credential) (opAssetID offset : Nat) :
    List Input → Nat → List Nat → List Nat → List Nat →
    Res (List Nat × List Nat × List Nat)
  | [], _, utxos, ins, credIntfs => .ok (utxos, ins, credIntfs)
  | inp :: rest, i, utxos, ins, credIntfs =>
      let ins' := ins ++ [inp.payload]
      match creds[i + offset]? with
      | none => .panics
      | some cred =>
          let credIntfs' := credIntfs ++ [cred.cred]
          let utxoID := inp.inputID
          match env.stateUTXO utxoID with
          | some utxo =>
              if utxo.asset ≠ opAssetID then .err .assetIDMismatch
              else resolveIns env creds opAssetID offset rest (i + 1)
                     (utxos ++ [utxo.out]) ins' credIntfs'
          | none =>
              let src := inp.inputSource
              let inputTx := src.1
              let inputIndex := src.2
              if ¬ env.parentVerify inputTx then .err .missingUTXO
              else if env.parentDecided inputTx then .err .missingUTXO
              else
                let parentUTXOs := env.parentUTXOs inputTx
                if (parentUTXOs.length % 2 ^ 32 ≤ inputIndex) ∨ ((inputIndex : Int) < 0)
                then .err .invalidUTXO
                else
                  match parentUTXOs[inputIndex]? with
                  | none => .panics
                  | some utxo =>
                      if utxo.asset ≠ opAssetID then .err .assetIDMismatch
                      else resolveIns env creds opAssetID offset rest (i + 1)
                             (utxos ++ [utxo.out]) ins' credIntfs'

/-- Lines 171-177: the payload handed to `vm.getFx` — the first collected
input payload if any, else the first collected output payload, else nil. -/
def fxObjOf (ins outs : List Nat) : Option Nat :=
  match ins with
  | i0 :: _ => some i0
  | [] =>
      match outs with
      | o0 :: _ => some o0
      | [] => none

/-- Lines 114-193: process the operations in declared order. `offset`
advances by each operation's input count; the dispatch payload is the first
input payload, else the first output payload, else none; the trace records
each `VerifyOperation` invocation in order. -/
def semOps (env : SemEnv) (creds : List Credential) :
    Nat → List Operation → List FxCall → Res Unit × List FxCall
  | _, [], trace => (.ok (), trace)
  | offset, op :: rest, trace =>
      match resolveIns env creds op.assetID offset op.ins 0 [] [] [] with
      | .err e => (.err e, trace)
      | .panics => (.panics, trace)
      | .ok (utxos, ins, credIntfs) =>
          let offset' := offset + op.ins.length
          let outs := op.outs.map Output.payload
          let fxObj : Option Nat := fxObjOf ins outs
          match env.getFx fxObj with
          | .error e => (.err (.getFxErr e), trace)
          | .ok fxIndex =>
              if ¬ env.verifyFxUsage fxIndex op.assetID then (.err .incompatibleFx, trace)
              else
                let call : FxCall :=
                  { fxIndex := fxIndex, utxos := utxos, ins := ins
                    creds := credIntfs, outs := outs }
                match env.fxVerifyOperation call with
                | some e => (.err (.fxVerifyErr e), trace ++ [call])
                | none => semOps env creds offset' rest (trace ++ [call])

/-- `SemanticVerify` (lines 109-195): base semantic verification first,
then the per-operation pass with `offset` initialized to the number of
base-transaction inputs. Returns the outcome and the trace of feature
extension invocations. -/
def SemanticVerify (env : SemEnv) (t : OperationTx) (creds : List Credential) :
    Res Unit × List FxCall :=
  match env.baseSemVerify t.baseTx creds with
  | some e => (.err (.baseErr e), [])
  | none => semOps env creds t.baseTx.ins.length t.ops []

/-! ## Packer binary codec (spec §4.1; implementation external to the excerpt,
tests in `src/unnamed/part_000`) -/

/-- Big-endian byte list of width `w` for value `v` (low bytes last). -/
def beBytes : Nat → Nat → List Nat
  | 0, _ => []
  | w + 1, v => beBytes w (v / 256) ++ [v % 256]

/-- Big-endian value of a byte list. -/
def unpackBE (bytes : List Nat) : Nat := bytes.foldl (fun acc b => acc * 256 + b) 0

/-- Packer error codes: overflow (write past `MaxSize`), underflow (read
past end of buffer), bad declared length. -/
def errOverflow : Nat := 0

/-- Underflow error code. -/
def errUnderflow : Nat := 1

/-- Bad declared length error code (string longer than the 16-bit range). -/
def errBadLength : Nat := 2

/-- Modelled from the spec: the `Packer` session (§4.1; implementation
external to the excerpt) — a length-bounded, resumable binary read/write
cursor: `MaxSize` capacity, byte buffer, read offset, and the accumulated
error list (`Errs`; the session is `Errored` iff it is nonempty). Bytes are
`Nat` values `< 256`. -/
structure Packer where
  maxSize : Nat
  bytes : List Nat
  offset : Nat
  errs : List Nat
deriving DecidableEq, Repr

/-- `Errored()`: whether any error has been accumulated. -/
def Packer.Errored (p : Packer) : Bool := !p.errs.isEmpty

/-- Record an error on the session. -/
def Packer.addErr (p : Packer) (e : Nat) : Packer := { p with errs := p.errs ++ [e] }

/-- Modelled from the spec: the shared fixed-width append — no-op when
already errored; overflow (buffer entirely unmodified) when the value's
width would exceed `MaxSize`; otherwise append big-endian bytes. -/
def Packer.packBE (p : Packer) (width v : Nat) : Packer :=
  if p.Errored then p
  else if p.maxSize < p.bytes.length + width then p.addErr errOverflow
  else { p with bytes := p.bytes ++ beBytes width (v % 256 ^ width) }

/-- `PackByte`. -/
def Packer.PackByte (p : Packer) (v : Nat) : Packer := p.packBE 1 v

/-- `PackShort`. -/
def Packer.PackShort (p : Packer) (v : Nat) : Packer := p.packBE 2 v

/-- `PackInt`. -/
def Packer.PackInt (p : Packer) (v : Nat) : Packer := p.packBE 4 v

/-- `PackLong`. -/
def Packer.PackLong (p : Packer) (v : Nat) : Packer := p.packBE 8 v

/-- `PackBool`: canonical single byte, `false = 0x00`, `true = 0x01`. -/
def Packer.PackBool (p : Packer) (b : Bool) : Packer := p.PackByte (if b then 1 else 0)

/-- Modelled from the spec: `PackStr` — 2-byte big-endian length prefix
followed by the raw bytes; fails if the byte length exceeds the 16-bit
range or if the total would exceed `MaxSize`. -/
def Packer.PackStr (p : Packer) (s : List Nat) : Packer :=
  if p.Errored then p
  else if 2 ^ 16 ≤ s.length then p.addErr errBadLength
  else if p.maxSize < p.bytes.length + 2 + s.length then p.addErr errOverflow
  else { p with bytes := p.bytes ++ beBytes 2 s.length ++ s }

/-- Modelled from the spec: the shared fixed-width read — no-op (zero
value) when already errored; underflow when fewer bytes remain than
required; otherwise read big-endian and advance the offset. -/
def Packer.unpackBEBytes (p : Packer) (width : Nat) : Nat × Packer :=
  if p.Errored then (0, p)
  else if p.bytes.length < p.offset + width then (0, p.addErr errUnderflow)
  else (unpackBE ((p.bytes.drop p.offset).take width), { p with offset := p.offset + width })

/-- `UnpackByte`: the value read (session advanced as a side effect). -/
def Packer.UnpackByte (p : Packer) : Nat × Packer := p.unpackBEBytes 1

/-- `UnpackShort`. -/
def Packer.UnpackShort (p : Packer) : Nat × Packer := p.unpackBEBytes 2

/-- `UnpackInt`. -/
def Packer.UnpackInt (p : Packer) : Nat × Packer := p.unpackBEBytes 4

/-- `UnpackLong`. -/
def Packer.UnpackLong (p : Packer) : Nat × Packer := p.unpackBEBytes 8

/-- `UnpackBool`: a single byte, decoded by comparison with the canonical
`true` encoding. -/
def Packer.UnpackBool (p : Packer) : Bool × Packer :=
  let r := p.UnpackByte
  (r.1 == 1, r.2)

/-- Modelled from the spec: `UnpackStr` — read a 2-byte big-endian length
prefix, then that many raw bytes; underflow when fewer remain. -/
def Packer.UnpackStr (p : Packer) : List Nat × Packer :=
  let r := p.unpackBEBytes 2
  let n := r.1
  let p' := r.2
  if p'.Errored then ([], p')
  else if p'.bytes.length < p'.offset + n then ([], p'.addErr errUnderflow)
  else ((p'.bytes.drop p'.offset).take n, { p' with offset := p'.offset + n })

/-- One pack/unpack call on a session, for quantifying over "every
subsequent pack or unpack call". -/
inductive PackerOp where
  | packByte (v : Nat)
  | packShort (v : Nat)
  | packInt (v : Nat)
  | packLong (v : Nat)
  | packBool (b : Bool)
  | packStr (s : List Nat)
  | unpackByte
  | unpackShort
  | unpackInt
  | unpackLong
  | unpackBool
  | unpackStr
deriving DecidableEq, Repr

/-- The session state after applying one pack/unpack call. -/
def PackerOp.apply : PackerOp → Packer → Packer
  | .packByte v, p => p.PackByte v
  | .packShort v, p => p.PackShort v
  | .packInt v, p => p.PackInt v
  | .packLong v, p => p.PackLong v
  | .packBool b, p => p.PackBool b
  | .packStr s, p => p.PackStr s
  | .unpackByte, p => p.UnpackByte.2
  | .unpackShort, p => p.UnpackShort.2
  | .unpackInt, p => p.UnpackInt.2
  | .unpackLong, p => p.UnpackLong.2
  | .unpackBool, p => p.UnpackBool.2
  | .unpackStr, p => p.UnpackStr.2

/-! ## Identifier string codec (spec §4.2; implementation external to the
excerpt, tests in `src/ids/id_test.go`) -/

/-- An identifier: a fixed 32-byte value wrapped verbatim (bytes are `Nat`
values `< 256`). -/
structure ID where
  key : List Nat
deriving DecidableEq, Repr

/-- `NewID`: wrap the 32 bytes verbatim; no hashing. -/
def NewID (b : List Nat) : ID := ⟨b⟩

/-- Modelled from the spec: the canonical alphabet of the identifier's
textual encoding (§6: "a specific canonical alphabet"); sixteen
unambiguous characters, one byte rendered as two characters. -/
def alphabet : List Char :=
  ['A', 'B', 'C', 'D', 'E', 'F', 'G', 'H', 'J', 'K', 'L', 'M', 'N', 'P', 'Q', 'R']

/-- Modelled from the spec: the appended checksum over the 32 bytes (§6:
"the 32 bytes plus an appended checksum"), rendered as 4 big-endian
bytes. -/
def checksum (b : List Nat) : Nat := (b.foldl (fun acc x => acc + x) 0) % 2 ^ 32

/-- One byte as two canonical characters (high nibble first). -/
def encodeByte (b : Nat) : List Char := [alphabet.getD (b / 16) 'A', alphabet.getD (b % 16) 'A']

/-- A byte list as canonical characters. -/
def encodeBytes : List Nat → List Char
  | [] => []
  | b :: rest => encodeByte b ++ encodeBytes rest

/-- Modelled from the spec: `String()` — the canonical, checksummed,
reversible textual encoding: the 32 key bytes followed by the 4 checksum
bytes, each byte as two canonical characters (72 characters total). -/
def ID.string (id : ID) : List Char := encodeBytes (id.key ++ beBytes 4 (checksum id.key))

/-- Decode errors of `FromString`: wrong length, character outside the
canonical alphabet, checksum mismatch. -/
inductive DecodeErr where
  | wrongLength
  | badChar
  | badChecksum
deriving DecidableEq, Repr

/-- The byte value of one canonical character, or `none` if the character
is outside the alphabet. -/
def decodeChar (c : Char) : Option Nat :=
  let i := alphabet.indexOf c
  if i < alphabet.length then some i else none

/-- Decode character pairs back to bytes; `none` on a bad character or odd
length. -/
def decodeChars : List Char → Option (List Nat)
  | [] => some []
  | [_] => none
  | c1 :: c2 :: rest =>
      match decodeChar c1, decodeChar c2, decodeChars rest with
      | some d1, some d2, some bs => some ((16 * d1 + d2) :: bs)
      | _, _, _ => none

/-- Modelled from the spec: `FromString` — the exact inverse of
`String()`; rejects wrong length, characters outside the canonical
alphabet, and a checksum mismatch as decode errors. -/
def FromString (s : List Char) : Except DecodeErr ID :=
  if s.length ≠ 72 then .error .wrongLength
  else
    match decodeChars s with
    | none => .error .badChar
    | some bytes =>
        let data := bytes.take 32
        let ck := bytes.drop 32
        if ck = beBytes 4 (checksum data) then .ok ⟨data⟩
        else .error .badChecksum

/-! ## Specification-side predicates and concrete instances -/

/-- Every UTXO of the list is addressed by the transaction's ID and its own
position (as a `uint32`). -/
def IndexedBy (txID : Nat) (l : List UTXO) : Prop :=
  ∀ i (h : i < l.length), (l.get ⟨i, h⟩).utxoID = ⟨txID, i % 2 ^ 32⟩

/-- The `(asset, payload)` view of a UTXO, for stating the layout of the
produced-output list. -/
def assetOut (u : UTXO) : Nat × Nat := (u.asset, u.out)

/-- Whether scanning the identifier list left to right against an
already-consumed set would find an identifier that repeats one seen
before (a duplicate relative to declared order). -/
def hasDup (consumed : List UTXOID) : List UTXOID → Bool
  | [] => false
  | x :: rest => consumed.contains x || hasDup (x :: consumed) rest

/-- The input identifiers of a list of operations, flattened in declared
operation and input order. -/
def flatInputIDs (ops : List Operation) : List UTXOID :=
  (ops.flatMap Operation.ins).map Input.inputID

/-- The input identifiers consumed by the base transaction's inputs. -/
def baseInputIDs (t : OperationTx) : List UTXOID := t.baseTx.ins.map Input.inputID

/-- The input identifiers of all of a transaction's operations, in declared
order. -/
def opInputIDs (t : OperationTx) : List UTXOID := flatInputIDs t.ops

/-- A concrete transaction used to instantiate proved properties: one base
input/two base outputs, one operation with one input and one output. -/
def txW : OperationTx :=
  { baseTx := { ins := [⟨⟨3, 0⟩, 100⟩], outs := [⟨40⟩, ⟨41⟩] }
    ops := [{ assetID := 7, ins := [⟨⟨1, 0⟩, 101⟩], outs := [⟨50⟩] }] }

/-- The representative payload selecting a feature extension, as the spec
words it: the first input payload if any inputs exist, else the first
output payload, else none. -/
def dispatchKey (op : Operation) : Option Nat :=
  match op.ins with
  | i0 :: _ => some i0.payload
  | [] =>
      match op.outs with
      | o0 :: _ => some o0.payload
      | [] => none

/-- A semantic environment in which every lookup succeeds: the store always
hits with asset 7, extension 0 recognizes everything and accepts. -/
def envSemOkW : SemEnv :=
  { baseSemVerify := fun _ _ => none
    stateUTXO := fun u => some ⟨u, 7, 99⟩
    parentVerify := fun _ => false
    parentDecided := fun _ => false
    parentUTXOs := fun _ => []
    getFx := fun _ => .ok 0
    verifyFxUsage := fun _ _ => true
    fxVerifyOperation := fun _ => none }

/-- A semantic environment whose store always misses, with one verified,
undecided ancestor (transaction 2) producing a single output of asset 9. -/
def envSemMissW : SemEnv :=
  { baseSemVerify := fun _ _ => none
    stateUTXO := fun _ => none
    parentVerify := fun t => t == 2
    parentDecided := fun _ => false
    parentUTXOs := fun t => if t == 2 then [⟨⟨2, 0⟩, 9, 88⟩] else []
    getFx := fun _ => .ok 0
    verifyFxUsage := fun _ _ => true
    fxVerifyOperation := fun _ => none }

/-- A transaction with no base inputs and a single one-input operation of
asset 7, for exercising the semantic pipeline at its first input. -/
def txSem1 : OperationTx :=
  { baseTx := { ins := [], outs := [] }
    ops := [{ assetID := 7, ins := [⟨⟨2, 0⟩, 101⟩], outs := [] }] }

/-! ## Theorems -/

theorem appendOpUTXOs_map (txID a : Nat) (outs : List Output) (utxos : List UTXO) :
    (appendOpUTXOs txID a outs utxos).map assetOut
      = utxos.map assetOut ++ outs.map (fun o => (a, o.payload)) := by
  induction outs generalizing utxos with
  | nil => simp [appendOpUTXOs]
  | cons out rest ih => simp [appendOpUTXOs, ih, assetOut]

theorem appendOpsUTXOs_map (txID : Nat) (ops : List Operation) (utxos : List UTXO) :
    (appendOpsUTXOs txID ops utxos).map assetOut
      = utxos.map assetOut
        ++ ops.flatMap (fun op => op.outs.map (fun o => (op.assetID, o.payload))) := by
  induction ops generalizing utxos with
  | nil => simp [appendOpsUTXOs]
  | cons op rest ih => simp [appendOpsUTXOs, ih, appendOpUTXOs_map]

theorem baseTx_utxos_map (b : BaseTx) (txID a : Nat) :
    (b.UTXOs txID a).map assetOut = b.outs.map (fun o => (a, o.payload)) := by
  have h : (b.UTXOs txID a).map assetOut
      = b.outs.enum.map (fun p => (a, p.2.payload)) := by
    simp [BaseTx.UTXOs, assetOut, List.map_map, Function.comp]
  rw [h]
  have h2 : (fun p : Nat × Output => (a, p.2.payload))
      = (fun o : Output => (a, o.payload)) ∘ Prod.snd := rfl
  rw [h2, ← List.map_map, List.enum_map_snd]

theorem indexedBy_concat {txID : Nat} {l : List UTXO} {u : UTXO}
    (h1 : IndexedBy txID l) (h2 : u.utxoID = ⟨txID, l.length % 2 ^ 32⟩) :
    IndexedBy txID (l ++ [u]) := by
  intro i hi
  have hi' : i < l.length + 1 := by simpa using hi
  rcases Nat.lt_or_ge i l.length with hil | hge
  · have : (l ++ [u]).get ⟨i, hi⟩ = l.get ⟨i, hil⟩ := by
      simp [List.get_eq_getElem, List.getElem_append_left hil]
    rw [this]; exact h1 i hil
  · have hie : i = l.length := by omega
    subst hie
    have hi' : l.length < l.length + 1 := by omega
    have : (l ++ [u]).get ⟨l.length, hi⟩ = u := by
      simp [List.get_eq_getElem]
    rw [this, h2]

theorem appendOpUTXOs_indexed (txID a : Nat) (outs : List Output) (utxos : List UTXO)
    (h : IndexedBy txID utxos) : IndexedBy txID (appendOpUTXOs txID a outs utxos) := by
  induction outs generalizing utxos with
  | nil => exact h
  | cons out rest ih =>
      exact ih _ (indexedBy_concat h rfl)

theorem appendOpsUTXOs_indexed (txID : Nat) (ops : List Operation) (utxos : List UTXO)
    (h : IndexedBy txID utxos) : IndexedBy txID (appendOpsUTXOs txID ops utxos) := by
  induction ops generalizing utxos with
  | nil => exact h
  | cons op rest ih => exact ih _ (appendOpUTXOs_indexed txID op.assetID op.outs utxos h)

theorem baseTx_utxos_indexed (b : BaseTx) (txID a : Nat) :
    IndexedBy txID (b.UTXOs txID a) := by
  intro i h
  simp only [BaseTx.UTXOs, List.length_map, List.enum_length] at h
  simp [BaseTx.UTXOs, List.get_eq_getElem]

/-- C10: the produced-UTXO list of `OperationTx.UTXOs` holds the base
transaction's outputs first, then every operation's outputs in declared
operation and output order, and the UTXO at position `i` is addressed by
`(txID, i)` (for positions within the `uint32` range). -/
theorem operationTx_utxos_spec (t : OperationTx) (txID baseAsset : Nat) :
    (t.UTXOs txID baseAsset).map assetOut
      = t.baseTx.outs.map (fun o => (baseAsset, o.payload))
        ++ t.ops.flatMap (fun op => op.outs.map (fun o => (op.assetID, o.payload)))
    ∧ ∀ i (h : i < (t.UTXOs txID baseAsset).length), i < 2 ^ 32 →
        ((t.UTXOs txID baseAsset).get ⟨i, h⟩).utxoID = ⟨txID, i⟩ := by
  constructor
  · rw [OperationTx.UTXOs, appendOpsUTXOs_map, baseTx_utxos_map]
  · intro i h hlt
    have hx := appendOpsUTXOs_indexed txID t.ops (t.baseTx.UTXOs txID baseAsset)
      (baseTx_utxos_indexed t.baseTx txID baseAsset) i h
    rw [Nat.mod_eq_of_lt hlt] at hx
    exact hx

/-- C10 witness: the concrete transaction's third produced UTXO (one past
the two base outputs) is addressed by the transaction ID and position 2. -/
theorem operationTx_utxos_spec_witness :
    ((txW.UTXOs 5 7).get ⟨2, by decide⟩).utxoID = ⟨5, 2⟩ :=
  (operationTx_utxos_spec txW 5 7).2 2 (by decide) (by decide)

theorem addOpIns_cases (ins : List Input) (consumed : List UTXOID) :
    (addOpIns consumed ins = .error .doubleSpend
        ∧ hasDup consumed (ins.map Input.inputID) = true)
    ∨ (∃ c, addOpIns consumed ins = .ok c
        ∧ hasDup consumed (ins.map Input.inputID) = false
        ∧ ∀ x, x ∈ c ↔ x ∈ ins.map Input.inputID ∨ x ∈ consumed) := by
  induction ins generalizing consumed with
  | nil =>
      right
      exact ⟨consumed, rfl, rfl, by simp⟩
  | cons i rest ih =>
      by_cases hc : i.inputID ∈ consumed
      · left
        exact ⟨by simp [addOpIns, hc], by simp [hasDup, hc]⟩
      · rcases ih (i.inputID :: consumed) with ⟨herr, hdup⟩ | ⟨c, hok, hdup, hmem⟩
        · left
          exact ⟨by simp [addOpIns, hc, herr], by simp [hasDup, hc, hdup]⟩
        · right
          refine ⟨c, by simp [addOpIns, hc, hok], by simp [hasDup, hc, hdup], ?_⟩
          intro x
          rw [hmem x]
          simp only [List.map_cons, List.mem_cons]
          tauto

theorem hasDup_congr (l c₁ c₂ : List UTXOID) (h : ∀ x, x ∈ c₁ ↔ x ∈ c₂) :
    hasDup c₁ l = hasDup c₂ l := by
  induction l generalizing c₁ c₂ with
  | nil => rfl
  | cons x rest ih =>
      have hc : c₁.contains x = c₂.contains x := by
        by_cases hx : x ∈ c₁
        · have hx2 : x ∈ c₂ := (h x).mp hx
          simp [hx, hx2]
        · have hx2 : x ∉ c₂ := fun hh => hx ((h x).mpr hh)
          simp [hx, hx2]
      simp only [hasDup, hc]
      rw [ih (x :: c₁) (x :: c₂) (fun y => by simp only [List.mem_cons]; rw [h y])]

theorem hasDup_append (l₁ l₂ c : List UTXOID) :
    hasDup c (l₁ ++ l₂) = (hasDup c l₁ || hasDup (l₁ ++ c) l₂) := by
  induction l₁ generalizing c with
  | nil => simp [hasDup]
  | cons x l₁ ih =>
      have hcg : hasDup (l₁ ++ x :: c) l₂ = hasDup ((x :: l₁) ++ c) l₂ := by
        apply hasDup_congr
        intro y
        simp only [List.mem_append, List.mem_cons]
        tauto
      calc hasDup c ((x :: l₁) ++ l₂)
          = (c.contains x || hasDup (x :: c) (l₁ ++ l₂)) := rfl
        _ = (c.contains x || (hasDup (x :: c) l₁ || hasDup (l₁ ++ x :: c) l₂)) := by
              rw [ih (x :: c)]
        _ = ((c.contains x || hasDup (x :: c) l₁) || hasDup (l₁ ++ x :: c) l₂) := by
              rw [Bool.or_assoc]
        _ = (hasDup c (x :: l₁) || hasDup ((x :: l₁) ++ c) l₂) := by rw [hcg]; rfl

theorem hasDup_iff_exists (l c : List UTXOID) :
    hasDup c l = true
      ↔ ∃ k, ∃ hk : k < l.length,
          l.get ⟨k, hk⟩ ∈ c ∨ l.get ⟨k, hk⟩ ∈ l.take k := by
  induction l generalizing c with
  | nil => simp [hasDup]
  | cons x rest ih =>
      simp only [hasDup, Bool.or_eq_true]
      constructor
      · rintro (hc | hd)
        · refine ⟨0, by simp, Or.inl ?_⟩
          show x ∈ c
          simpa using hc
        · obtain ⟨k, hk, hmem⟩ := (ih (x :: c)).mp hd
          have hk1 : k + 1 < (x :: rest).length := by simpa using Nat.succ_lt_succ hk
          refine ⟨k + 1, hk1, ?_⟩
          have hg : (x :: rest).get ⟨k + 1, hk1⟩ = rest.get ⟨k, hk⟩ := rfl
          rw [hg]
          rcases hmem with hmc | hmt
          · rcases List.mem_cons.mp hmc with he | hmc2
            · right
              rw [List.take_succ_cons]
              exact List.mem_cons.mpr (Or.inl he)
            · exact Or.inl hmc2
          · right
            rw [List.take_succ_cons]
            exact List.mem_cons.mpr (Or.inr hmt)
      · rintro ⟨k, hk, hmem⟩
        cases k with
        | zero =>
            left
            rcases hmem with h1 | h2
            · have : x ∈ c := h1
              simpa using this
            · simp at h2
        | succ j =>
            right
            apply (ih (x :: c)).mpr
            have hj : j < rest.length := by simpa using hk
            refine ⟨j, hj, ?_⟩
            have hg : (x :: rest).get ⟨j + 1, hk⟩ = rest.get ⟨j, hj⟩ := rfl
            rw [hg] at hmem
            rcases hmem with h1 | h2
            · exact Or.inl (List.mem_cons.mpr (Or.inr h1))
            · rw [List.take_succ_cons] at h2
              rcases List.mem_cons.mp h2 with he | h3
              · exact Or.inl (List.mem_cons.mpr (Or.inl he))
              · exact Or.inr h3

theorem nodup_hasDup_false (base l : List UTXOID) (h : (base ++ l).Nodup) :
    hasDup base l = false := by
  cases hhd : hasDup base l with
  | false => rfl
  | true =>
      exfalso
      obtain ⟨k, hk, hmem⟩ := (hasDup_iff_exists l base).mp hhd
      rw [List.nodup_append] at h
      obtain ⟨hb, hl, hdisj⟩ := h
      rcases hmem with h1 | h2
      · exact hdisj h1 (l.get_mem _ _)
      · have h2' : getElem l k hk ∈ l.take k := h2
        obtain ⟨j, hj, he⟩ := List.getElem_of_mem h2'
        have hjk : j < k := lt_of_lt_of_le hj (List.length_take_le k l)
        rw [List.getElem_take] at he
        have hj2 : j = k := (List.Nodup.getElem_inj_iff hl).mp he
        omega

theorem verifyOps_cases (env : SynEnv) (ops : List Operation)
    (hop : ∀ op ∈ ops, env.opVerify op = none) (consumed : List UTXOID) :
    (verifyOps env consumed ops = .error .doubleSpend
        ∧ hasDup consumed (flatInputIDs ops) = true)
    ∨ (∃ c, verifyOps env consumed ops = .ok c
        ∧ hasDup consumed (flatInputIDs ops) = false) := by
  induction ops generalizing consumed with
  | nil => exact Or.inr ⟨consumed, rfl, rfl⟩
  | cons op rest ih =>
      have hopv : env.opVerify op = none := hop op (by simp)
      have hrest : ∀ o ∈ rest, env.opVerify o = none := fun o ho => hop o (by simp [ho])
      have hfl : flatInputIDs (op :: rest)
          = op.ins.map Input.inputID ++ flatInputIDs rest := by
        simp [flatInputIDs]
      rcases addOpIns_cases op.ins consumed with ⟨herr, hdup⟩ | ⟨c, hok, hdup, hmem⟩
      · left
        exact ⟨by simp [verifyOps, hopv, herr],
               by rw [hfl, hasDup_append, hdup]; rfl⟩
      · have hbr : hasDup (op.ins.map Input.inputID ++ consumed) (flatInputIDs rest)
            = hasDup c (flatInputIDs rest) := by
          apply hasDup_congr
          intro y
          simp only [List.mem_append]
          exact (hmem y).symm
        rcases ih hrest c with ⟨herr2, hdup2⟩ | ⟨c2, hok2, hdup2⟩
        · left
          exact ⟨by simp [verifyOps, hopv, hok, herr2],
                 by rw [hfl, hasDup_append, hdup, hbr, hdup2]; rfl⟩
        · right
          exact ⟨c2, by simp [verifyOps, hopv, hok, hok2],
                 by rw [hfl, hasDup_append, hdup, hbr, hdup2]; rfl⟩

theorem verifyOps_no_doubleSpend (env : SynEnv) (ops : List Operation)
    (consumed : List UTXOID) (h : hasDup consumed (flatInputIDs ops) = false) :
    verifyOps env consumed ops ≠ .error .doubleSpend := by
  induction ops generalizing consumed with
  | nil => simp [verifyOps]
  | cons op rest ih =>
      have hfl : flatInputIDs (op :: rest)
          = op.ins.map Input.inputID ++ flatInputIDs rest := by
        simp [flatInputIDs]
      rw [hfl, hasDup_append, Bool.or_eq_false_iff] at h
      obtain ⟨h1, h2⟩ := h
      cases hv : env.opVerify op with
      | some e => simp [verifyOps, hv]
      | none =>
          rcases addOpIns_cases op.ins consumed with ⟨herr, hdup⟩ | ⟨c, hok, hdup, hmem⟩
          · rw [hdup] at h1
            cases h1
          · have hbr : hasDup c (flatInputIDs rest) = false := by
              have hcongr := hasDup_congr (flatInputIDs rest)
                (op.ins.map Input.inputID ++ consumed) c
                (fun x => by simp only [List.mem_append]; exact (hmem x).symm)
              rw [hcongr] at h2
              exact h2
            simp only [verifyOps, hv, hok]
            exact ih c hbr

/-- C1: for a non-nil transaction whose base and operations individually
verify, if some operation input's identifier repeats one already consumed
by the base inputs or by an earlier operation input in declared order,
`SyntacticVerify` returns the double-spend error; and if all identifiers
across base and operation inputs are pairwise distinct, the double-spend
error is never returned. -/
theorem syntacticVerify_doubleSpend_spec (env : SynEnv) (tx : OperationTx) :
    ((env.baseSynVerify tx.baseTx = none) →
        (∀ op ∈ tx.ops, env.opVerify op = none) →
        (∃ k, ∃ hk : k < (opInputIDs tx).length,
          (opInputIDs tx).get ⟨k, hk⟩ ∈ baseInputIDs tx
            ∨ (opInputIDs tx).get ⟨k, hk⟩ ∈ (opInputIDs tx).take k) →
        SyntacticVerify env (some tx) = some .doubleSpend)
    ∧ ((baseInputIDs tx ++ opInputIDs tx).Nodup →
        SyntacticVerify env (some tx) ≠ some .doubleSpend) := by
  constructor
  · intro hbase hops hex
    have hd : hasDup (baseInputIDs tx) (opInputIDs tx) = true :=
      (hasDup_iff_exists _ _).mpr hex
    rcases verifyOps_cases env tx.ops hops (baseInputIDs tx) with ⟨herr, _⟩ | ⟨c, hok, hdup⟩
    · rw [baseInputIDs] at herr
      simp [SyntacticVerify, hbase, herr]
    · rw [opInputIDs] at hd
      rw [hdup] at hd
      cases hd
  · intro hnd hcontra
    have hd : hasDup (baseInputIDs tx) (opInputIDs tx) = false :=
      nodup_hasDup_false _ _ hnd
    cases hb : env.baseSynVerify tx.baseTx with
    | some e => simp [SyntacticVerify, hb] at hcontra
    | none =>
        cases hv : verifyOps env (tx.baseTx.ins.map Input.inputID) tx.ops with
        | error e =>
            simp [SyntacticVerify, hb, hv] at hcontra
            rw [hcontra] at hv
            exact verifyOps_no_doubleSpend env tx.ops (baseInputIDs tx) hd hv
        | ok c =>
            by_cases hs : env.isSortedAndUniqueOperations tx.ops
            · simp [SyntacticVerify, hb, hv, hs] at hcontra
            · simp [SyntacticVerify, hb, hv, hs] at hcontra

/-- C1 witness: a concrete transaction whose single operation input repeats
the base transaction's input identifier is rejected as a double spend. -/
theorem syntacticVerify_doubleSpend_spec_witness :
    SyntacticVerify ⟨fun _ => none, fun _ => none, fun _ => true⟩
        (some { baseTx := { ins := [⟨⟨1, 0⟩, 100⟩], outs := [] }
                ops := [{ assetID := 7, ins := [⟨⟨1, 0⟩, 101⟩], outs := [] }] })
      = some .doubleSpend :=
  (syntacticVerify_doubleSpend_spec _ _).1 rfl (fun _ _ => rfl)
    ⟨0, by decide, Or.inl (by decide)⟩

theorem addOpIns_error_eq (ins : List Input) (consumed : List UTXOID) (e : SynErr)
    (h : addOpIns consumed ins = .error e) : e = .doubleSpend := by
  rcases addOpIns_cases ins consumed with ⟨herr, _⟩ | ⟨c, hok, _, _⟩
  · rw [h] at herr
    exact (Except.error.injEq _ _).mp herr
  · rw [h] at hok
    simp at hok

theorem verifyOps_error_ne_ns (env : SynEnv) (ops : List Operation) :
    ∀ consumed e, verifyOps env consumed ops = .error e →
      e ≠ .operationsNotSortedUnique := by
  induction ops with
  | nil =>
      intro consumed e h
      simp [verifyOps] at h
  | cons op rest ih =>
      intro consumed e h
      cases hv : env.opVerify op with
      | some x =>
          simp [verifyOps, hv] at h
          rw [← h]
          simp
      | none =>
          cases ha : addOpIns consumed op.ins with
          | error e2 =>
              simp [verifyOps, hv, ha] at h
              have he2 := addOpIns_error_eq op.ins consumed e2 ha
              rw [← h, he2]
              simp
          | ok c =>
              simp only [verifyOps, hv, ha] at h
              exact ih c e h

theorem verifyOps_ok_opVerify (env : SynEnv) (ops : List Operation) :
    ∀ consumed c, verifyOps env consumed ops = .ok c →
      ∀ op ∈ ops, env.opVerify op = none := by
  induction ops with
  | nil =>
      intro _ _ _ op hop
      simp at hop
  | cons op rest ih =>
      intro consumed c h o ho
      cases hv : env.opVerify op with
      | some x => simp [verifyOps, hv] at h
      | none =>
          cases ha : addOpIns consumed op.ins with
          | error e2 => simp [verifyOps, hv, ha] at h
          | ok c' =>
              simp only [verifyOps, hv, ha] at h
              rcases List.mem_cons.mp ho with he | hm
              · rw [he]
                exact hv
              · exact ih c' c h o hm

/-- C5: `SyntacticVerify` returns the not-sorted-unique error exactly when
the base verification and the per-operation pass (operation verification
and double-spend checks) all succeed and the sorted-and-unique predicate
rejects the operation list; the per-operation pass succeeding entails every
operation individually verified; and a sorted-and-unique operation list
never draws this error. -/
theorem syntacticVerify_sortedUnique_spec (env : SynEnv) (tx : OperationTx) :
    (SyntacticVerify env (some tx) = some .operationsNotSortedUnique
      ↔ (env.baseSynVerify tx.baseTx = none
          ∧ (∃ c, verifyOps env (baseInputIDs tx) tx.ops = .ok c)
          ∧ env.isSortedAndUniqueOperations tx.ops = false))
    ∧ ((∃ c, verifyOps env (baseInputIDs tx) tx.ops = .ok c) →
        ∀ op ∈ tx.ops, env.opVerify op = none)
    ∧ (env.isSortedAndUniqueOperations tx.ops = true →
        SyntacticVerify env (some tx) ≠ some .operationsNotSortedUnique) := by
  have hiff : SyntacticVerify env (some tx) = some .operationsNotSortedUnique
      ↔ (env.baseSynVerify tx.baseTx = none
          ∧ (∃ c, verifyOps env (baseInputIDs tx) tx.ops = .ok c)
          ∧ env.isSortedAndUniqueOperations tx.ops = false) := by
    constructor
    · intro h
      cases hb : env.baseSynVerify tx.baseTx with
      | some e =>
          simp [SyntacticVerify, hb] at h
      | none =>
          cases hv : verifyOps env (tx.baseTx.ins.map Input.inputID) tx.ops with
          | error e =>
              simp [SyntacticVerify, hb, hv] at h
              exact absurd h (verifyOps_error_ne_ns env tx.ops _ e hv)
          | ok c =>
              cases hs : env.isSortedAndUniqueOperations tx.ops with
              | true => simp [SyntacticVerify, hb, hv, hs] at h
              | false => exact ⟨rfl, ⟨c, hv⟩, rfl⟩
    · rintro ⟨hb, ⟨c, hok⟩, hs⟩
      rw [baseInputIDs] at hok
      simp [SyntacticVerify, hb, hok, hs]
  refine ⟨hiff, ?_, ?_⟩
  · rintro ⟨c, hok⟩
    exact verifyOps_ok_opVerify env tx.ops _ c hok
  · intro hs hcontra
    obtain ⟨_, _, hfalse⟩ := hiff.mp hcontra
    rw [hs] at hfalse
    cases hfalse

/-- C5 witness: a concrete transaction that passes base and per-operation
checks but whose operation list the sorted-and-unique predicate rejects
fails with exactly the not-sorted-unique error. -/
theorem syntacticVerify_sortedUnique_spec_witness :
    SyntacticVerify ⟨fun _ => none, fun _ => none, fun _ => false⟩ (some txW)
      = some .operationsNotSortedUnique :=
  (syntacticVerify_sortedUnique_spec ⟨fun _ => none, fun _ => none, fun _ => false⟩ txW).1.mpr
    ⟨rfl, ⟨[⟨1, 0⟩, ⟨3, 0⟩], rfl⟩, rfl⟩

theorem semanticVerify_eq_semOps (env : SemEnv) (t : OperationTx) (creds : List Credential)
    (hbase : env.baseSemVerify t.baseTx creds = none) :
    SemanticVerify env t creds = semOps env creds t.baseTx.ins.length t.ops [] := by
  simp [SemanticVerify, hbase]

theorem semOps_head_err (env : SemEnv) (creds : List Credential) (offset : Nat)
    (op : Operation) (ops : List Operation) (trace : List FxCall) (e : SemErr)
    (h : resolveIns env creds op.assetID offset op.ins 0 [] [] [] = .err e) :
    semOps env creds offset (op :: ops) trace = (.err e, trace) := by
  simp [semOps, h]

theorem resolveIns_cons_missing (env : SemEnv) (creds : List Credential)
    (a offset : Nat) (inp : Input) (rest : List Input) (i : Nat)
    (utxos ins cs : List Nat)
    (hcred : i + offset < creds.length)
    (hmiss : env.stateUTXO inp.inputID = none)
    (hpar : env.parentVerify inp.utxoID.txID = false
        ∨ env.parentDecided inp.utxoID.txID = true) :
    resolveIns env creds a offset (inp :: rest) i utxos ins cs = .err .missingUTXO := by
  have hc := List.getElem?_eq_getElem hcred
  rcases hpar with hpv | hpd
  · simp [resolveIns, hc, hmiss, Input.inputSource, hpv]
  · cases hpv : env.parentVerify inp.utxoID.txID with
    | false => simp [resolveIns, hc, hmiss, Input.inputSource, hpv]
    | true => simp [resolveIns, hc, hmiss, Input.inputSource, hpv, hpd]

theorem resolveIns_cons_invalid (env : SemEnv) (creds : List Credential)
    (a offset : Nat) (inp : Input) (rest : List Input) (i : Nat)
    (utxos ins cs : List Nat)
    (hcred : i + offset < creds.length)
    (hmiss : env.stateUTXO inp.inputID = none)
    (hpv : env.parentVerify inp.utxoID.txID = true)
    (hpd : env.parentDecided inp.utxoID.txID = false)
    (hlen : (env.parentUTXOs inp.utxoID.txID).length % 2 ^ 32 ≤ inp.utxoID.outputIndex) :
    resolveIns env creds a offset (inp :: rest) i utxos ins cs = .err .invalidUTXO := by
  have hc := List.getElem?_eq_getElem hcred
  have hlen2 : (env.parentUTXOs inp.utxoID.txID).length % 4294967296
      ≤ inp.utxoID.outputIndex := by simpa using hlen
  simp [resolveIns, hc, hmiss, Input.inputSource, hpv, hpd, hlen2]

/-- C2: with the base semantic check passing and a credential available for
the first operation input, (i) when the live UTXO store misses, an ancestor
that fails its own verification or is already decided draws the
missing-output error, (ii) an out-of-range output index into the ancestor's
produced outputs draws the invalid-output error, and (iii) when every
operation input hits the live store, the outcome is independent of the
ancestor resolver — the store is consulted first and the ancestor only on a
miss. -/
theorem semanticVerify_resolution_spec (env : SemEnv) (base : BaseTx) (op : Operation)
    (ops' : List Operation) (inp : Input) (rest : List Input) (creds : List Credential)
    (hins : op.ins = inp :: rest)
    (hbase : env.baseSemVerify base creds = none)
    (hcred : base.ins.length < creds.length) :
    ((env.stateUTXO inp.inputID = none) →
        (env.parentVerify inp.utxoID.txID = false ∨ env.parentDecided inp.utxoID.txID = true) →
        (SemanticVerify env ⟨base, op :: ops'⟩ creds).1 = .err .missingUTXO)
    ∧ ((env.stateUTXO inp.inputID = none) →
        env.parentVerify inp.utxoID.txID = true →
        env.parentDecided inp.utxoID.txID = false →
        (env.parentUTXOs inp.utxoID.txID).length % 2 ^ 32 ≤ inp.utxoID.outputIndex →
        (SemanticVerify env ⟨base, op :: ops'⟩ creds).1 = .err .invalidUTXO)
    ∧ (∀ env' : SemEnv,
        env'.baseSemVerify = env.baseSemVerify →
        env'.stateUTXO = env.stateUTXO →
        env'.getFx = env.getFx →
        env'.verifyFxUsage = env.verifyFxUsage →
        env'.fxVerifyOperation = env.fxVerifyOperation →
        (∀ o ∈ op :: ops', ∀ j ∈ o.ins, (env.stateUTXO j.inputID).isSome) →
        SemanticVerify env ⟨base, op :: ops'⟩ creds
          = SemanticVerify env' ⟨base, op :: ops'⟩ creds) := by
  have hcred0 : 0 + base.ins.length < creds.length := by omega
  refine ⟨?_, ?_, ?_⟩
  · intro hmiss hpar
    have hr := resolveIns_cons_missing env creds op.assetID base.ins.length inp rest 0
      [] [] [] hcred0 hmiss hpar
    rw [← hins] at hr
    rw [semanticVerify_eq_semOps env _ creds hbase]
    rw [semOps_head_err env creds base.ins.length op ops' [] _ hr]
  · intro hmiss hpv hpd hlen
    have hr := resolveIns_cons_invalid env creds op.assetID base.ins.length inp rest 0
      [] [] [] hcred0 hmiss hpv hpd hlen
    rw [← hins] at hr
    rw [semanticVerify_eq_semOps env _ creds hbase]
    rw [semOps_head_err env creds base.ins.length op ops' [] _ hr]
  · intro env' hb hs hg hu hf hall
    have hres : ∀ inps, (∀ j ∈ inps, (env.stateUTXO j.inputID).isSome) →
        ∀ a offset i utxos ins cs,
        resolveIns env creds a offset inps i utxos ins cs
          = resolveIns env' creds a offset inps i utxos ins cs := by
      intro inps
      induction inps with
      | nil => intro _ a offset i utxos ins cs; rfl
      | cons j tl ih =>
          intro hh a offset i utxos ins cs
          have hj : (env.stateUTXO j.inputID).isSome := hh j (by simp)
          have htl : ∀ x ∈ tl, (env.stateUTXO x.inputID).isSome :=
            fun x hx => hh x (by simp [hx])
          obtain ⟨u, hu2⟩ := Option.isSome_iff_exists.mp hj
          have hu2' : env'.stateUTXO j.inputID = some u := by rw [hs, hu2]
          by_cases hm : u.asset = a
          · simp [resolveIns, hu2, hu2', hm, ih htl]
          · simp [resolveIns, hu2, hu2', hm]
    have hops : ∀ ops, (∀ o ∈ ops, ∀ j ∈ o.ins, (env.stateUTXO j.inputID).isSome) →
        ∀ offset trace,
        semOps env creds offset ops trace = semOps env' creds offset ops trace := by
      intro ops
      induction ops with
      | nil => intro _ offset trace; rfl
      | cons o tl ih =>
          intro hh offset trace
          have ho : ∀ j ∈ o.ins, (env.stateUTXO j.inputID).isSome := hh o (by simp)
          have htl : ∀ x ∈ tl, ∀ j ∈ x.ins, (env.stateUTXO j.inputID).isSome :=
            fun x hx => hh x (by simp [hx])
          have hr := hres o.ins ho o.assetID offset 0 [] [] []
          cases hv : resolveIns env' creds o.assetID offset o.ins 0 [] [] [] with
          | err e =>
              rw [hv] at hr
              simp [semOps, hr, hv]
          | panics =>
              rw [hv] at hr
              simp [semOps, hr, hv]
          | ok acc =>
              rw [hv] at hr
              obtain ⟨us, is, cs⟩ := acc
              simp only [semOps, hr, hv, hg, hu, hf, ih htl]
    have hbase' : env'.baseSemVerify base creds = none := by rw [hb]; exact hbase
    rw [semanticVerify_eq_semOps env _ creds hbase,
        semanticVerify_eq_semOps env' _ creds hbase']
    exact hops (op :: ops') hall base.ins.length []

/-- C2 witness: an input referencing an unverified ancestor (transaction 3)
with the store missing draws the missing-output error. -/
theorem semanticVerify_resolution_spec_witness :
    (SemanticVerify envSemMissW
        ⟨⟨[], []⟩, [⟨7, [⟨⟨3, 0⟩, 101⟩], []⟩]⟩ [⟨11⟩]).1 = .err .missingUTXO :=
  (semanticVerify_resolution_spec envSemMissW ⟨[], []⟩ ⟨7, [⟨⟨3, 0⟩, 101⟩], []⟩ []
    ⟨⟨3, 0⟩, 101⟩ [] [⟨11⟩] rfl rfl (by decide)).1 rfl (Or.inl rfl)

theorem resolveIns_cons_hit_mismatch (env : SemEnv) (creds : List Credential)
    (a offset : Nat) (inp : Input) (rest : List Input) (i : Nat)
    (utxos ins cs : List Nat) (utxo : UTXO)
    (hcred : i + offset < creds.length)
    (hhit : env.stateUTXO inp.inputID = some utxo)
    (hne : utxo.asset ≠ a) :
    resolveIns env creds a offset (inp :: rest) i utxos ins cs
      = .err .assetIDMismatch := by
  have hc := List.getElem?_eq_getElem hcred
  simp [resolveIns, hc, hhit, hne]

theorem resolveIns_cons_parent_mismatch (env : SemEnv) (creds : List Credential)
    (a offset : Nat) (inp : Input) (rest : List Input) (i : Nat)
    (utxos ins cs : List Nat) (utxo : UTXO)
    (hcred : i + offset < creds.length)
    (hmiss : env.stateUTXO inp.inputID = none)
    (hpv : env.parentVerify inp.utxoID.txID = true)
    (hpd : env.parentDecided inp.utxoID.txID = false)
    (hidx : inp.utxoID.outputIndex < (env.parentUTXOs inp.utxoID.txID).length % 2 ^ 32)
    (hutxo : (env.parentUTXOs inp.utxoID.txID)[inp.utxoID.outputIndex]? = some utxo)
    (hne : utxo.asset ≠ a) :
    resolveIns env creds a offset (inp :: rest) i utxos ins cs
      = .err .assetIDMismatch := by
  have hc := List.getElem?_eq_getElem hcred
  have hcond : ¬((env.parentUTXOs inp.utxoID.txID).length % 4294967296
      ≤ inp.utxoID.outputIndex ∨ ((inp.utxoID.outputIndex : Int) < 0)) := by
    have hidx2 : inp.utxoID.outputIndex
        < (env.parentUTXOs inp.utxoID.txID).length % 4294967296 := by simpa using hidx
    rintro (h1 | h2) <;> omega
  simp [resolveIns, hc, hmiss, Input.inputSource, hpv, hpd, hcond, hutxo, hne]

/-- C3: when the first input of the first operation resolves — from the
live store or from a verified, undecided ancestor's in-range output — to an
output whose asset differs from the operation's declared asset,
`SemanticVerify` fails with the asset-mismatch error and no feature
extension is invoked (the trace is empty). -/
theorem semanticVerify_assetMismatch_spec (env : SemEnv) (base : BaseTx) (op : Operation)
    (ops' : List Operation) (inp : Input) (rest : List Input) (creds : List Credential)
    (utxo : UTXO)
    (hins : op.ins = inp :: rest)
    (hbase : env.baseSemVerify base creds = none)
    (hcred : base.ins.length < creds.length)
    (hne : utxo.asset ≠ op.assetID) :
    ((env.stateUTXO inp.inputID = some utxo) →
        SemanticVerify env ⟨base, op :: ops'⟩ creds = (.err .assetIDMismatch, []))
    ∧ ((env.stateUTXO inp.inputID = none) →
        env.parentVerify inp.utxoID.txID = true →
        env.parentDecided inp.utxoID.txID = false →
        inp.utxoID.outputIndex < (env.parentUTXOs inp.utxoID.txID).length % 2 ^ 32 →
        (env.parentUTXOs inp.utxoID.txID)[inp.utxoID.outputIndex]? = some utxo →
        SemanticVerify env ⟨base, op :: ops'⟩ creds = (.err .assetIDMismatch, [])) := by
  have hcred0 : 0 + base.ins.length < creds.length := by omega
  constructor
  · intro hhit
    have hr := resolveIns_cons_hit_mismatch env creds op.assetID base.ins.length inp rest 0
      [] [] [] utxo hcred0 hhit hne
    rw [← hins] at hr
    rw [semanticVerify_eq_semOps env _ creds hbase]
    rw [semOps_head_err env creds base.ins.length op ops' [] _ hr]
  · intro hmiss hpv hpd hidx hutxo
    have hr := resolveIns_cons_parent_mismatch env creds op.assetID base.ins.length inp
      rest 0 [] [] [] utxo hcred0 hmiss hpv hpd hidx hutxo hne
    rw [← hins] at hr
    rw [semanticVerify_eq_semOps env _ creds hbase]
    rw [semOps_head_err env creds base.ins.length op ops' [] _ hr]

/-- C3 witness: the concrete ancestor-resolved output (asset 9) mismatches
the operation's declared asset 7 and no extension runs. -/
theorem semanticVerify_assetMismatch_spec_witness :
    SemanticVerify envSemMissW txSem1 [⟨11⟩] = (.err .assetIDMismatch, []) :=
  (semanticVerify_assetMismatch_spec envSemMissW ⟨[], []⟩ ⟨7, [⟨⟨2, 0⟩, 101⟩], []⟩ []
    ⟨⟨2, 0⟩, 101⟩ [] [⟨11⟩] ⟨⟨2, 0⟩, 9, 88⟩ rfl rfl (by decide) (by decide)).2
    rfl rfl rfl (by decide) rfl

theorem resolveIns_ok_acc (env : SemEnv) (creds : List Credential) (a offset : Nat) :
    ∀ inps i utxos ins cs us2 is2 cs2,
      resolveIns env creds a offset inps i utxos ins cs = .ok (us2, is2, cs2) →
      is2 = ins ++ inps.map Input.payload
      ∧ cs2 = cs ++ ((creds.drop (i + offset)).take inps.length).map Credential.cred := by
  intro inps
  induction inps with
  | nil =>
      intro i utxos ins cs us2 is2 cs2 h
      simp only [resolveIns] at h
      injection h with h4
      injection h4 with h5 h6
      injection h6 with h7 h8
      subst h7
      subst h8
      simp
  | cons inp rest ih =>
      intro i utxos ins cs us2 is2 cs2 h
      simp only [resolveIns] at h
      cases heq : creds[i + offset]? with
      | none =>
          simp only [heq] at h
          simp at h
      | some cred =>
          simp only [heq] at h
          obtain ⟨hlt, hget⟩ := List.getElem?_eq_some.mp heq
          have hdrop : creds.drop (i + offset)
              = cred :: creds.drop (i + offset + 1) := by
            rw [List.drop_eq_getElem_cons hlt, hget]
          have harith : i + 1 + offset = i + offset + 1 := by omega
          cases hs : env.stateUTXO inp.inputID with
          | some utxo =>
              simp only [hs] at h
              by_cases hm : utxo.asset ≠ a
              · rw [if_pos hm] at h
                simp at h
              · rw [if_neg hm] at h
                obtain ⟨h1, h2⟩ := ih (i + 1) (utxos ++ [utxo.out])
                  (ins ++ [inp.payload]) (cs ++ [cred.cred]) us2 is2 cs2 h
                refine ⟨by rw [h1]; simp, ?_⟩
                rw [h2, harith, hdrop]
                simp [List.take_succ_cons, List.append_assoc]
          | none =>
              simp only [hs, Input.inputSource] at h
              by_cases hpv : env.parentVerify inp.utxoID.txID = true
              · rw [if_neg (by simp [hpv])] at h
                by_cases hpd : env.parentDecided inp.utxoID.txID = true
                · rw [if_pos hpd] at h
                  simp at h
                · rw [if_neg hpd] at h
                  by_cases hcond : (env.parentUTXOs inp.utxoID.txID).length % 2 ^ 32
                      ≤ inp.utxoID.outputIndex ∨ ((inp.utxoID.outputIndex : Int) < 0)
                  · rw [if_pos hcond] at h
                    simp at h
                  · rw [if_neg hcond] at h
                    cases hg : (env.parentUTXOs inp.utxoID.txID)[inp.utxoID.outputIndex]? with
                    | none =>
                        simp only [hg] at h
                        simp at h
                    | some u =>
                        simp only [hg] at h
                        by_cases hm : u.asset ≠ a
                        · rw [if_pos hm] at h
                          simp at h
                        · rw [if_neg hm] at h
                          obtain ⟨h1, h2⟩ := ih (i + 1) (utxos ++ [u.out])
                            (ins ++ [inp.payload]) (cs ++ [cred.cred]) us2 is2 cs2 h
                          refine ⟨by rw [h1]; simp, ?_⟩
                          rw [h2, harith, hdrop]
                          simp [List.take_succ_cons, List.append_assoc]
              · rw [if_pos hpv] at h
                simp at h

/-- C6: for an operation whose inputs resolve, the payload used to select
the feature extension is the first input payload if the operation has
inputs, else the first output payload, else none; an unrecognized payload
draws the registry's lookup error, and a recognized extension that is not
permitted for the operation's declared asset draws the
incompatible-extension error — in both cases before the extension's
verification entry point runs (the trace stays empty). -/
theorem semanticVerify_dispatch_spec (env : SemEnv) (base : BaseTx) (op : Operation)
    (creds : List Credential) (us is cs : List Nat)
    (hbase : env.baseSemVerify base creds = none)
    (hres : resolveIns env creds op.assetID base.ins.length op.ins 0 [] [] []
      = .ok (us, is, cs)) :
    (∀ e, env.getFx (dispatchKey op) = .error e →
        SemanticVerify env ⟨base, [op]⟩ creds = (.err (.getFxErr e), []))
    ∧ (∀ fxi, env.getFx (dispatchKey op) = .ok fxi →
        env.verifyFxUsage fxi op.assetID = false →
        SemanticVerify env ⟨base, [op]⟩ creds = (.err .incompatibleFx, [])) := by
  obtain ⟨opa, opins, opouts⟩ := op
  obtain ⟨h1, _⟩ := resolveIns_ok_acc env creds opa base.ins.length opins 0 [] [] []
    us is cs hres
  have hkey : fxObjOf is (opouts.map Output.payload)
      = dispatchKey ⟨opa, opins, opouts⟩ := by
    rw [h1]
    cases opins with
    | nil =>
        cases opouts with
        | nil => rfl
        | cons o0 os => rfl
    | cons i0 is0 => rfl
  have hsem := semanticVerify_eq_semOps env ⟨base, [⟨opa, opins, opouts⟩]⟩ creds hbase
  constructor
  · intro e hge
    rw [hsem]
    simp only [semOps, hres, hkey]
    simp [hge]
  · intro fxi hge husage
    rw [hsem]
    simp only [semOps, hres, hkey]
    simp [hge, husage]

/-- C6 witness: an operation with no inputs and one output dispatches on
the first output payload; an extension registry rejecting every payload
makes `SemanticVerify` return its lookup error with an empty trace. -/
theorem semanticVerify_dispatch_spec_witness :
    SemanticVerify
        { baseSemVerify := fun _ _ => none
          stateUTXO := fun _ => none
          parentVerify := fun _ => false
          parentDecided := fun _ => false
          parentUTXOs := fun _ => []
          getFx := fun _ => .error 5
          verifyFxUsage := fun _ _ => true
          fxVerifyOperation := fun _ => none }
        ⟨⟨[], []⟩, [⟨7, [], [⟨50⟩]⟩]⟩ []
      = (.err (.getFxErr 5), []) :=
  (semanticVerify_dispatch_spec
    { baseSemVerify := fun _ _ => none
      stateUTXO := fun _ => none
      parentVerify := fun _ => false
      parentDecided := fun _ => false
      parentUTXOs := fun _ => []
      getFx := fun _ => .error 5
      verifyFxUsage := fun _ _ => true
      fxVerifyOperation := fun _ => none }
    ⟨[], []⟩ ⟨7, [], [⟨50⟩]⟩ [] [] [] [] rfl rfl).1 5 rfl

theorem semOps_ok_trace (env : SemEnv) (creds : List Credential) :
    ∀ ops offset trace tr,
      semOps env creds offset ops trace = (.ok (), tr) →
      ∃ calls, tr = trace ++ calls ∧ calls.length = ops.length ∧
        ∀ j (hj : j < ops.length), ∃ call, calls[j]? = some call ∧
          call.creds = ((creds.drop (offset
              + ((ops.take j).map (fun o => o.ins.length)).sum)).take
              ((ops.get ⟨j, hj⟩).ins.length)).map Credential.cred := by
  intro ops
  induction ops with
  | nil =>
      intro offset trace tr h
      simp only [semOps] at h
      have h2 : trace = tr := congrArg Prod.snd h
      refine ⟨[], by simp [← h2], rfl, ?_⟩
      intro j hj
      simp at hj
  | cons op rest ih =>
      intro offset trace tr h
      simp only [semOps] at h
      cases hr : resolveIns env creds op.assetID offset op.ins 0 [] [] [] with
      | err e =>
          simp only [hr] at h
          simp at h
      | panics =>
          simp only [hr] at h
          simp at h
      | ok acc =>
          obtain ⟨us, is, cs⟩ := acc
          simp only [hr] at h
          cases hg : env.getFx (fxObjOf is (op.outs.map Output.payload)) with
          | error e =>
              simp only [hg] at h
              simp at h
          | ok fxi =>
              simp only [hg] at h
              by_cases hu : env.verifyFxUsage fxi op.assetID = true
              · rw [if_neg (by simp [hu])] at h
                cases hf : env.fxVerifyOperation
                    { fxIndex := fxi, utxos := us, ins := is, creds := cs
                      outs := op.outs.map Output.payload } with
                | some e =>
                    simp only [hf] at h
                    simp at h
                | none =>
                    simp only [hf] at h
                    obtain ⟨calls2, htr, hlen, hcreds⟩ :=
                      ih (offset + op.ins.length)
                        (trace ++ [{ fxIndex := fxi, utxos := us, ins := is, creds := cs
                                     outs := op.outs.map Output.payload }]) tr h
                    refine ⟨{ fxIndex := fxi, utxos := us, ins := is, creds := cs
                              outs := op.outs.map Output.payload } :: calls2,
                            by rw [htr]; simp, by simp [hlen], ?_⟩
                    intro j hj
                    cases j with
                    | zero =>
                        refine ⟨{ fxIndex := fxi, utxos := us, ins := is, creds := cs
                                  outs := op.outs.map Output.payload }, by simp, ?_⟩
                        obtain ⟨-, h2⟩ := resolveIns_ok_acc env creds op.assetID offset
                          op.ins 0 [] [] [] us is cs hr
                        simp [h2]
                    | succ j2 =>
                        have hj2 : j2 < rest.length := by simpa using hj
                        obtain ⟨call2, hc2, hcr2⟩ := hcreds j2 hj2
                        refine ⟨call2, by simpa using hc2, ?_⟩
                        rw [hcr2]
                        have harith : offset
                            + (((op :: rest).take (j2 + 1)).map (fun o => o.ins.length)).sum
                            = offset + op.ins.length
                              + ((rest.take j2).map (fun o => o.ins.length)).sum := by
                          simp [List.take_succ_cons]
                          omega
                        rw [← harith]
                        congr 1
              · rw [if_pos (by simp [hu])] at h
                simp at h

/-- C4: on a successful semantic run, exactly one extension call is made
per operation, and the credentials passed with operation `j` are the
contiguous credential slice starting at (number of base inputs) + (total
inputs of earlier operations), of length equal to the operation's own input
count — credentials align positionally with base inputs first and each
operation's inputs in declared order. -/
theorem semanticVerify_cred_alignment (env : SemEnv) (t : OperationTx)
    (creds : List Credential)
    (h : (SemanticVerify env t creds).1 = .ok ()) :
    (SemanticVerify env t creds).2.length = t.ops.length
    ∧ ∀ j (hj : j < t.ops.length), ∃ call,
        (SemanticVerify env t creds).2[j]? = some call ∧
        call.creds = ((creds.drop (t.baseTx.ins.length
            + ((t.ops.take j).map (fun o => o.ins.length)).sum)).take
            ((t.ops.get ⟨j, hj⟩).ins.length)).map Credential.cred := by
  cases hb : env.baseSemVerify t.baseTx creds with
  | some e =>
      have hv : SemanticVerify env t creds = (.err (.baseErr e), []) := by
        simp [SemanticVerify, hb]
      rw [hv] at h
      simp at h
  | none =>
      have hsem := semanticVerify_eq_semOps env t creds hb
      rw [hsem] at h ⊢
      have hpair : semOps env creds t.baseTx.ins.length t.ops []
          = (.ok (), (semOps env creds t.baseTx.ins.length t.ops []).2) := by
        rw [← h]
      obtain ⟨calls, htr, hlen, hcreds⟩ :=
        semOps_ok_trace env creds t.ops t.baseTx.ins.length [] _ hpair
      constructor
      · rw [htr]
        simpa using hlen
      · intro j hj
        obtain ⟨call, hc, hcr⟩ := hcreds j hj
        refine ⟨call, ?_, hcr⟩
        rw [htr]
        simpa using hc

/-- C4 witness: on the concrete all-succeeding run, one extension call is
recorded per operation. -/
theorem semanticVerify_cred_alignment_witness :
    (SemanticVerify envSemOkW txW [⟨11⟩, ⟨12⟩]).2.length = txW.ops.length :=
  (semanticVerify_cred_alignment envSemOkW txW [⟨11⟩, ⟨12⟩] rfl).1

theorem resolveIns_ne_panics (env : SemEnv) (creds : List Credential) (a offset : Nat) :
    ∀ inps i utxos ins cs,
      i + offset + inps.length ≤ creds.length →
      resolveIns env creds a offset inps i utxos ins cs ≠ .panics := by
  intro inps
  induction inps with
  | nil =>
      intro i utxos ins cs hle
      simp [resolveIns]
  | cons inp rest ih =>
      intro i utxos ins cs hle
      have hlt : i + offset < creds.length := by
        simp only [List.length_cons] at hle
        omega
      have hrec : i + 1 + offset + rest.length ≤ creds.length := by
        simp only [List.length_cons] at hle
        omega
      have hc := List.getElem?_eq_getElem hlt
      simp only [resolveIns, hc, Input.inputSource]
      cases hs : env.stateUTXO inp.inputID with
      | some utxo =>
          simp only [hs]
          by_cases hm : utxo.asset ≠ a
          · simp [hm]
          · rw [if_neg hm]
            exact ih (i + 1) _ _ _ hrec
      | none =>
          simp only [hs]
          by_cases hpv : env.parentVerify inp.utxoID.txID = true
          · rw [if_neg (by simp [hpv])]
            by_cases hpd : env.parentDecided inp.utxoID.txID = true
            · rw [if_pos hpd]
              simp
            · rw [if_neg hpd]
              by_cases hcond : (env.parentUTXOs inp.utxoID.txID).length % 2 ^ 32
                  ≤ inp.utxoID.outputIndex ∨ ((inp.utxoID.outputIndex : Int) < 0)
              · rw [if_pos hcond]
                simp
              · rw [if_neg hcond]
                have hidx : inp.utxoID.outputIndex
                    < (env.parentUTXOs inp.utxoID.txID).length := by
                  have hn : ¬((env.parentUTXOs inp.utxoID.txID).length % 2 ^ 32
                      ≤ inp.utxoID.outputIndex) := fun hh => hcond (Or.inl hh)
                  have hm32 := Nat.mod_le (env.parentUTXOs inp.utxoID.txID).length (2 ^ 32)
                  omega
                have hg := List.getElem?_eq_getElem hidx
                simp only [hg]
                by_cases hm : ((env.parentUTXOs inp.utxoID.txID).get
                    ⟨inp.utxoID.outputIndex, hidx⟩).asset ≠ a
                · rw [List.get_eq_getElem] at hm
                  simp [hm]
                · rw [List.get_eq_getElem] at hm
                  rw [if_neg hm]
                  exact ih (i + 1) _ _ _ hrec
          · rw [if_pos hpv]
            simp

theorem semOps_ne_panics (env : SemEnv) (creds : List Credential) :
    ∀ ops offset trace,
      offset + (ops.map (fun o => o.ins.length)).sum ≤ creds.length →
      (semOps env creds offset ops trace).1 ≠ .panics := by
  intro ops
  induction ops with
  | nil =>
      intro offset trace hle
      simp [semOps]
  | cons op rest ih =>
      intro offset trace hle
      have hle1 : 0 + offset + op.ins.length ≤ creds.length := by
        simp only [List.map_cons, List.sum_cons] at hle
        omega
      have hle2 : offset + op.ins.length + (rest.map (fun o => o.ins.length)).sum
          ≤ creds.length := by
        simp only [List.map_cons, List.sum_cons] at hle
        omega
      simp only [semOps]
      cases hr : resolveIns env creds op.assetID offset op.ins 0 [] [] [] with
      | panics =>
          exact absurd hr (resolveIns_ne_panics env creds op.assetID offset op.ins 0 [] [] [] hle1)
      | err e =>
          simp only [hr]
          simp
      | ok acc =>
          obtain ⟨us, is, cs⟩ := acc
          simp only [hr]
          cases hg : env.getFx (fxObjOf is (op.outs.map Output.payload)) with
          | error e =>
              simp only [hg]
              simp
          | ok fxi =>
              simp only [hg]
              by_cases hu : env.verifyFxUsage fxi op.assetID = true
              · rw [if_neg (by simp [hu])]
                cases hf : env.fxVerifyOperation
                    { fxIndex := fxi, utxos := us, ins := is, creds := cs
                      outs := op.outs.map Output.payload } with
                | some e =>
                    simp only [hf]
                    simp
                | none =>
                    simp only [hf]
                    exact ih (offset + op.ins.length) _ hle2
              · rw [if_pos (by simp [hu])]
                simp

/-- C7 counterexample: a transaction with one single-input operation and an
empty credential list — fewer credentials than inputs — makes the
credential indexing `creds[i+offset]` go out of range: the run ends in the
panic outcome rather than returning a typed error. -/
theorem semanticVerify_short_creds_panics :
    (SemanticVerify envSemOkW txSem1 []).1 = .panics := rfl

/-- C7 (amended): whenever the credential list covers the base and
operation inputs, `SemanticVerify` never panics — every failure is a typed
error; only a credential list shorter than the total input count (the
internal invariant violation §7 carves out) reaches the out-of-range
credential indexing. -/
theorem semanticVerify_no_panic (env : SemEnv) (t : OperationTx) (creds : List Credential)
    (h : t.baseTx.ins.length + (t.ops.map (fun o => o.ins.length)).sum ≤ creds.length) :
    (SemanticVerify env t creds).1 ≠ .panics := by
  cases hb : env.baseSemVerify t.baseTx creds with
  | some e =>
      simp [SemanticVerify, hb]
  | none =>
      rw [semanticVerify_eq_semOps env t creds hb]
      exact semOps_ne_panics env creds t.ops t.baseTx.ins.length [] h

/-- C7 witness: with two credentials covering the two inputs of the
concrete transaction, the run does not panic. -/
theorem semanticVerify_no_panic_witness :
    (SemanticVerify envSemOkW txW [⟨11⟩, ⟨12⟩]).1 ≠ .panics :=
  semanticVerify_no_panic envSemOkW txW [⟨11⟩, ⟨12⟩] (by decide)

/-- C8: once a Packer session has errored, every subsequent pack or unpack
call returns the session unchanged (bytes, offset and error list intact)
and the session still reports errored; concretely, packing a second short
into a 3-byte session holding 2 bytes fails by overflow, leaves the first
2 bytes intact, and a fresh session over those bytes decodes the original
value 17. -/
theorem packer_sticky_spec (p : Packer) (op : PackerOp) (h : p.Errored = true) :
    (op.apply p = p ∧ (op.apply p).Errored = true)
    ∧ ((Packer.PackShort (Packer.PackShort ⟨3, [], 0, []⟩ 17) 1).Errored = true
        ∧ (Packer.PackShort (Packer.PackShort ⟨3, [], 0, []⟩ 17) 1).bytes
            = (Packer.PackShort ⟨3, [], 0, []⟩ 17).bytes
        ∧ (Packer.UnpackShort
            ⟨0, (Packer.PackShort (Packer.PackShort ⟨3, [], 0, []⟩ 17) 1).bytes, 0, []⟩).1
            = 17) := by
  constructor
  · cases op <;>
      simp [PackerOp.apply, Packer.PackByte, Packer.PackShort, Packer.PackInt,
        Packer.PackLong, Packer.PackBool, Packer.PackStr, Packer.packBE,
        Packer.UnpackByte, Packer.UnpackShort, Packer.UnpackInt, Packer.UnpackLong,
        Packer.UnpackBool, Packer.UnpackStr, Packer.unpackBEBytes, h]
  · exact ⟨by decide, by decide, by decide⟩

/-- C8 witness: a concrete errored session absorbs a subsequent byte pack
as a no-op. -/
theorem packer_sticky_spec_witness :
    (PackerOp.packByte 9).apply ⟨3, [0, 17], 0, [errOverflow]⟩
      = ⟨3, [0, 17], 0, [errOverflow]⟩ :=
  (packer_sticky_spec ⟨3, [0, 17], 0, [errOverflow]⟩ (.packByte 9) (by decide)).1.1

theorem decodeChar_encode (d : Nat) (h : d < 16) :
    decodeChar (alphabet.getD d 'A') = some d := by
  have hall : ∀ x : Fin 16, decodeChar (alphabet.getD x.val 'A') = some x.val := by decide
  exact hall ⟨d, h⟩

theorem decodeChar_inv (c : Char) (d : Nat) (h : decodeChar c = some d) :
    alphabet.getD d 'A' = c ∧ d < 16 := by
  simp only [decodeChar] at h
  by_cases hi : alphabet.indexOf c < alphabet.length
  · rw [if_pos hi] at h
    injection h with h2
    subst h2
    refine ⟨?_, by simpa using hi⟩
    rw [List.getD_eq_getElem alphabet 'A' hi]
    exact List.getElem_indexOf hi
  · rw [if_neg hi] at h
    cases h

theorem beBytes_mem_lt (w : Nat) : ∀ v b, b ∈ beBytes w v → b < 256 := by
  induction w with
  | zero =>
      intro v b hb
      simp [beBytes] at hb
  | succ w ih =>
      intro v b hb
      simp only [beBytes] at hb
      rcases List.mem_append.mp hb with h1 | h2
      · exact ih _ b h1
      · have h3 : b = v % 256 := by simpa using h2
        rw [h3]
        exact Nat.mod_lt _ (by norm_num)

theorem beBytes_length (w : Nat) : ∀ v, (beBytes w v).length = w := by
  induction w with
  | zero => intro v; rfl
  | succ w ih =>
      intro v
      simp [beBytes, ih]

theorem encodeBytes_length : ∀ bs : List Nat, (encodeBytes bs).length = 2 * bs.length := by
  intro bs
  induction bs with
  | nil => rfl
  | cons b rest ih =>
      simp only [encodeBytes, encodeByte, List.cons_append, List.length_cons,
        List.nil_append, ih]
      omega

theorem decodeChars_encodeBytes (bs : List Nat) (h : ∀ b ∈ bs, b < 256) :
    decodeChars (encodeBytes bs) = some bs := by
  induction bs with
  | nil => rfl
  | cons b rest ih =>
      have hb : b < 256 := h b (by simp)
      have hrest : ∀ x ∈ rest, x < 256 := fun x hx => h x (by simp [hx])
      have hd16 : b / 16 < 16 := Nat.div_lt_of_lt_mul (by omega)
      have h1 : decodeChar (alphabet.getD (b / 16) 'A') = some (b / 16) :=
        decodeChar_encode _ hd16
      have h2 : decodeChar (alphabet.getD (b % 16) 'A') = some (b % 16) :=
        decodeChar_encode _ (Nat.mod_lt _ (by norm_num))
      simp only [encodeBytes, encodeByte, List.cons_append, List.nil_append]
      simp only [decodeChars, h1, h2, ih hrest]
      have hdm : 16 * (b / 16) + b % 16 = b := by omega
      rw [hdm]

theorem encode_decodeChars : ∀ (s : List Char) (bs : List Nat),
    decodeChars s = some bs → encodeBytes bs = s
  | [], bs, h => by
      simp only [decodeChars] at h
      injection h with h2
      rw [← h2]
      rfl
  | [c], bs, h => by
      simp only [decodeChars] at h
      exact Option.noConfusion h
  | c1 :: c2 :: rest, bs, h => by
      simp only [decodeChars] at h
      cases hd1 : decodeChar c1 with
      | none => rw [hd1] at h; simp at h
      | some d1 =>
          cases hd2 : decodeChar c2 with
          | none => rw [hd1, hd2] at h; simp at h
          | some d2 =>
              cases hdr : decodeChars rest with
              | none => rw [hd1, hd2, hdr] at h; simp at h
              | some bs2 =>
                  rw [hd1, hd2, hdr] at h
                  injection h with h2
                  obtain ⟨he1, hlt1⟩ := decodeChar_inv c1 d1 hd1
                  obtain ⟨he2, hlt2⟩ := decodeChar_inv c2 d2 hd2
                  have hdiv : (16 * d1 + d2) / 16 = d1 := by omega
                  have hmod : (16 * d1 + d2) % 16 = d2 := by omega
                  rw [← h2]
                  simp only [encodeBytes, encodeByte, hdiv, hmod, he1, he2,
                    List.cons_append, List.nil_append]
                  rw [encode_decodeChars rest bs2 hdr]

/-- C9: rendering any 32-byte identifier and parsing the result returns
exactly the original identifier (`FromString` inverts `String()`); a string
of the wrong length is rejected with a decode error; and any accepted
string is the canonical rendering of its result — so every malformed
string (bad character, bad checksum, wrong length) is rejected, as a
returned error, never a crash. -/
theorem id_string_roundtrip_spec (bytes : List Nat) (s : List Char)
    (h1 : bytes.length = 32) (h2 : ∀ b ∈ bytes, b < 256) :
    (FromString ((NewID bytes).string) = .ok (NewID bytes))
    ∧ (s.length ≠ 72 → FromString s = .error .wrongLength)
    ∧ (∀ id : ID, FromString s = .ok id → id.string = s) := by
  refine ⟨?_, ?_, ?_⟩
  · have hall : ∀ b ∈ bytes ++ beBytes 4 (checksum bytes), b < 256 := by
      intro b hb
      rcases List.mem_append.mp hb with hb1 | hb2
      · exact h2 b hb1
      · exact beBytes_mem_lt 4 _ b hb2
    have hdec := decodeChars_encodeBytes _ hall
    have hlen : (encodeBytes (bytes ++ beBytes 4 (checksum bytes))).length = 72 := by
      rw [encodeBytes_length, List.length_append, h1, beBytes_length]
    simp only [ID.string, NewID, FromString]
    rw [if_neg (by simp [hlen]), hdec]
    have htake : (bytes ++ beBytes 4 (checksum bytes)).take 32 = bytes := by
      rw [← h1]
      exact List.take_left bytes _
    have hdrop : (bytes ++ beBytes 4 (checksum bytes)).drop 32 = beBytes 4 (checksum bytes) := by
      rw [← h1]
      exact List.drop_left bytes _
    simp [htake, hdrop]
  · intro hlen
    simp [FromString, hlen]
  · intro id hok
    simp only [FromString] at hok
    by_cases hl : s.length ≠ 72
    · rw [if_pos hl] at hok
      cases hok
    · rw [if_neg hl] at hok
      cases hdc : decodeChars s with
      | none =>
          simp only [hdc] at hok
          simp at hok
      | some bs =>
          simp only [hdc] at hok
          by_cases hck : bs.drop 32 = beBytes 4 (checksum (bs.take 32))
          · rw [if_pos hck] at hok
            injection hok with h3
            rw [← h3]
            simp only [ID.string]
            rw [← hck, List.take_append_drop]
            exact encode_decodeChars s bs hdc
          · rw [if_neg hck] at hok
            cases hok

/-- C9 witness: the all-zero 32-byte identifier round-trips through its
string rendering. -/
theorem id_string_roundtrip_spec_witness :
    FromString ((NewID (List.replicate 32 0)).string) = .ok (NewID (List.replicate 32 0)) :=
  (id_string_roundtrip_spec (List.replicate 32 0) [] (by decide) (by decide)).1

end Gecko
